import Mathlib

/-!
Formal model of the market-data layer of `Leeward_Asset_Dashboard.py`:
the settlement clock (`get_current_he`), the cache refresh key, the retry
helper (`_fetch_with_retry`), the markup table parser
(`parse_yes_html_table`), the series normalization inside `fetch_rt_5min`
and `fetch_da_hourly`, the day-ahead step expansion inside
`create_price_chart`, the `st.cache_data` call path used by
`_get_rt_price`, and the top of `main`.

Python strings are modelled as `List Char` (the refresh key as a list of
character codes), wall-clock instants as integer minutes, prices as
rationals.
-/

namespace Leeward

/-! ## Configuration constants (source lines 140-142) -/

/-- Value of `API_TIMEOUT` in the configuration block. -/
def API_TIMEOUT : Nat := 30

/-- Value of `API_RETRY_ATTEMPTS`. -/
def API_RETRY_ATTEMPTS : Nat := 3

/-- Value of `API_RETRY_DELAY`. -/
def API_RETRY_DELAY : Nat := 2

/-! ## Settlement clock (`get_current_he`, source lines 145-148) -/

/-- A wall-clock instant, in minutes since an arbitrary epoch. -/
abbrev Instant := Int

/-- Minutes since local midnight for a zone given by its offset from the
epoch reference, in minutes.  Models the local calendar arithmetic behind
`datetime.now(tz)`. -/
def localMinutesOfDay (tzOffset : Int) (now : Instant) : Int :=
  (now + tzOffset) % 1440

/-- Models `datetime.now(tz).hour`: the local hour, an integer in
`[0, 23]`. -/
def localHour (tzOffset : Int) (now : Instant) : Int :=
  localMinutesOfDay tzOffset now / 60

/-- Models `datetime.now(tz).minute`. -/
def localMinute (tzOffset : Int) (now : Instant) : Int :=
  localMinutesOfDay tzOffset now % 60

/-- Model of `get_current_he(tz)` (source lines 145-148): the current hour
ending is `now.hour + 1`, with the wall clock passed explicitly so the
function is a pure function of zone and instant. -/
def get_current_he (tzOffset : Int) (now : Instant) : Int :=
  localHour tzOffset now + 1

/-! ## Cache refresh key (source lines 423, 443, 470, 523) -/

/-- Character code of the decimal digit `n % 10`. -/
def digitCode (n : Nat) : Nat := 48 + n % 10

/-- Zero-padded two-digit `strftime` field, as character codes
(adequate for field values below 100). -/
def twoDigitCodes (n : Nat) : List Nat := [digitCode (n / 10), digitCode n]

/-- Zero-padded four-digit `strftime` field, as character codes
(adequate for field values below 10000). -/
def fourDigitCodes (n : Nat) : List Nat :=
  [digitCode (n / 1000), digitCode (n / 100), digitCode (n / 10), digitCode n]

/-- Model of `datetime.now(tz).strftime('%Y-%m-%d %H:%M')[:15]` from
`render_ercot_tab`, `render_pjm_tab`, `render_caiso_tab` and
`render_iso_column`: format the local time and keep only the first 15
characters.  Code 45 is the hyphen, 32 the space, 58 the colon. -/
def refresh_key (year month day hour minute : Nat) : List Nat :=
  (fourDigitCodes year ++ [45] ++ twoDigitCodes month ++ [45] ++
    twoDigitCodes day ++ [32] ++ twoDigitCodes hour ++ [58] ++
    twoDigitCodes minute).take 15

/-! ## Retry helper (`_fetch_with_retry`, source lines 181-205) -/

/-- Outcome of one `requests.get` call inside the retry loop. -/
inductive FetchOutcome where
  | ok (body : List Char)
  | httpError (status : Nat)
  | timedOut
  | requestFailed (msg : List Char)
deriving DecidableEq

/-- Whether the attempt outcome is the `response.ok` branch. -/
def FetchOutcome.isOk : FetchOutcome → Bool
  | .ok _ => true
  | _ => false

/-- The `last_error` string recorded for a failed attempt (source lines
192, 195, 198).  The `ok` case is never recorded; it is mapped to the
empty string. -/
def attemptError (description : List Char) : FetchOutcome → List Char
  | .ok _ => []
  | .httpError status =>
      description ++ (" returned HTTP ".toList) ++ ((toString status).toList)
  | .timedOut => description ++ (" timed out after 30s".toList)
  | .requestFailed msg => description ++ (" request failed: ".toList) ++ msg

/-- One execution of the `for attempt in range(1, max_retries + 1)` loop of
`_fetch_with_retry`, with the network modelled as a function from the
1-based attempt number to that attempt outcome.  The first argument of the
recursion is the number of attempts still allowed, the second the 1-based
number of the next attempt, the third the current `last_error`.  Returns
the result (body, or the raised message) together with the number of
attempts made and the number of `time.sleep` calls. -/
def fetchLoop (net : Nat → FetchOutcome) (description : List Char) :
    Nat → Nat → Option (List Char) →
    (Except (List Char) (List Char)) × Nat × Nat
  | 0, _, lastError => (.error (lastError.getD ("None".toList)), 0, 0)
  | remaining + 1, attempt, _ =>
    match net attempt with
    | .ok body => (.ok body, 1, 0)
    | outcome =>
      let e := attemptError description outcome
      if remaining = 0 then (.error e, 1, 0)
      else
        let r := fetchLoop net description remaining (attempt + 1) (some e)
        (r.1, r.2.1 + 1, r.2.2 + 1)

/-- Model of `_fetch_with_retry(url, description, retries)` (source lines
181-205): the `url` is absorbed into `net`, the outcome oracle for each
attempt; `maxRetries` is `retries` when given, else `API_RETRY_ATTEMPTS`. -/
def fetch_with_retry (net : Nat → FetchOutcome) (description : List Char)
    (maxRetries : Nat := API_RETRY_ATTEMPTS) :
    (Except (List Char) (List Char)) × Nat × Nat :=
  fetchLoop net description maxRetries 1 none

/-! ## Markup table parser (`parse_yes_html_table`, source lines 151-178)

The regex scans are modelled at the character-list level.  The row scan
`re.findall(r'<tr>(.*?)</tr>', html, re.DOTALL)` is leftmost,
non-overlapping and non-greedy, which is exactly a repeated search for the
next opening tag followed by the next closing tag (`extractAll`).  The
inner cell scans on lines 166 and 169 omit `re.DOTALL`, so there the lazy
dot cannot cross a newline: an opening tag yields a capture only when a
closing tag follows it on the same line, and an opening tag with no
same-line closing tag is skipped (`extractAllNL`). -/

/-- Leftmost occurrence search: split `s` at the first occurrence of
`pat`, returning the text before the match and the text after it. -/
def splitFirst (pat : List Char) : List Char → Option (List Char × List Char)
  | [] => if pat.isEmpty then some ([], []) else none
  | c :: rest =>
    if pat.isPrefixOf (c :: rest) then some ([], (c :: rest).drop pat.length)
    else
      match splitFirst pat rest with
      | some (pre, post) => some (c :: pre, post)
      | none => none

/-- Whether `pat` occurs in `s`; models the Python substring test
`pat in s`. -/
def containsSub (pat s : List Char) : Bool := (splitFirst pat s).isSome

/-- Fuelled version of the repeated tag-pair extraction; the fuel bounds
the number of matches, which never exceeds the input length. -/
def extractAllAux (opn cls : List Char) : Nat → List Char → List (List Char)
  | 0, _ => []
  | fuel + 1, s =>
    match splitFirst opn s with
    | none => []
    | some (_, rest) =>
      match splitFirst cls rest with
      | none => []
      | some (captured, rest2) => captured :: extractAllAux opn cls fuel rest2

/-- Model of `re.findall(r'OPN(.*?)CLS', s)` with `re.DOTALL`: capture the
text between each successive opening-tag/closing-tag pair, scanning left
to right. -/
def extractAll (opn cls s : List Char) : List (List Char) :=
  extractAllAux opn cls s.length s

/-- Fuelled worker for `extractAllNL`.  When no closing tag follows the
opening tag on the same line, the match at that opening tag fails and the
scan resumes after it; for the self-overlap-free tags modelled here that
is where the next candidate match can start. -/
def extractAllNLAux (opn cls : List Char) :
    Nat → List Char → List (List Char)
  | 0, _ => []
  | fuel + 1, s =>
    match splitFirst opn s with
    | none => []
    | some (_, rest) =>
      match splitFirst cls (rest.takeWhile (fun ch => ch != '\n')) with
      | none => extractAllNLAux opn cls fuel rest
      | some (captured, _) =>
        captured :: extractAllNLAux opn cls fuel
          (rest.drop (captured.length + cls.length))

/-- Model of `re.findall(r'OPN(.*?)CLS', s)` without `re.DOTALL` (the
cell scans, source lines 166 and 169): the lazy dot does not match a
newline, so a capture never spans one. -/
def extractAllNL (opn cls s : List Char) : List (List Char) :=
  extractAllNLAux opn cls s.length s

/-- The literal `<tr>`. -/
def trOpen : List Char := ['<', 't', 'r', '>']

/-- The literal `</tr>`. -/
def trClose : List Char := ['<', '/', 't', 'r', '>']

/-- The literal `<th>`. -/
def thOpen : List Char := ['<', 't', 'h', '>']

/-- The literal `</th>`. -/
def thClose : List Char := ['<', '/', 't', 'h', '>']

/-- The literal `<td>`. -/
def tdOpen : List Char := ['<', 't', 'd', '>']

/-- The literal `</td>`. -/
def tdClose : List Char := ['<', '/', 't', 'd', '>']

/-- The non-breaking-space entity `&#160;` that the parser replaces. -/
def nbspEntity : List Char := "&#160;".toList

/-- Fuelled worker for `replaceNbsp`; each replacement consumes at least
the six characters of the entity, so fuel equal to the input length is
always sufficient. -/
def replaceNbspAux : Nat → List Char → List Char
  | 0, s => s
  | fuel + 1, s =>
    match splitFirst nbspEntity s with
    | none => s
    | some (pre, post) => pre ++ ' ' :: replaceNbspAux fuel post

/-- Model of `str.replace('&#160;', ' ')`: replace every occurrence,
scanning left to right. -/
def replaceNbsp (s : List Char) : List Char := replaceNbspAux s.length s

/-- The characters removed by Python `str.strip()`. -/
def pySpace (c : Char) : Bool :=
  c == ' ' || c == '\t' || c == '\n' || c == '\r' ||
    c == Char.ofNat 11 || c == Char.ofNat 12

/-- Model of `str.strip()`: drop leading and trailing whitespace. -/
def pyStrip (s : List Char) : List Char :=
  ((s.dropWhile pySpace).reverse.dropWhile pySpace).reverse

/-- The cell normalization `h.replace('&#160;', ' ').strip()` applied to
every header and data cell (source lines 167, 170). -/
def normCell (s : List Char) : List Char := pyStrip (replaceNbsp s)

/-- Result of `parse_yes_html_table`: `failure` is the `return None` path;
`raised` is the `pd.DataFrame(data, columns=headers)` constructor raising
on a data row whose width differs from the header width; `table` carries
the headers and the data rows. -/
inductive ParsedTable where
  | failure
  | raised
  | table (headers : List (List Char)) (data : List (List (List Char)))
deriving DecidableEq

/-- The row-classification loop (source lines 164-172), carrying the
`headers` and `data` accumulators of the Python loop: a row containing
`<th>` re-captures the header list; otherwise a row containing `<td>`
contributes a data row when its cell list is non-empty. -/
def parseRowsAux (headers : Option (List (List Char)))
    (data : List (List (List Char))) :
    List (List Char) → Option (List (List Char)) × List (List (List Char))
  | [] => (headers, data)
  | row :: rest =>
    if containsSub thOpen row then
      parseRowsAux (some ((extractAllNL thOpen thClose row).map normCell))
        data rest
    else if containsSub tdOpen row then
      let cells := (extractAllNL tdOpen tdClose row).map normCell
      if cells.isEmpty then parseRowsAux headers data rest
      else parseRowsAux headers (data ++ [cells]) rest
    else parseRowsAux headers data rest

/-- The row-classification loop started on empty accumulators.  Returns
the last captured header list (`none` when no header row was seen) and
the data rows in order. -/
def parseRows (rows : List (List Char)) :
    Option (List (List Char)) × List (List (List Char)) :=
  parseRowsAux none [] rows

/-- Model of `parse_yes_html_table(html_text)` (source lines 151-178).
An empty input has no row segments, so the initial false-input check and
the no-rows check both land in `failure`. -/
def parse_yes_html_table (html : List Char) : ParsedTable :=
  let rows := extractAll trOpen trClose html
  if rows.isEmpty then .failure
  else
    match parseRows rows with
    | (none, _) => .failure
    | (some headers, data) =>
      if headers.isEmpty || data.isEmpty then .failure
      else if data.all (fun r => r.length = headers.length) then
        .table headers data
      else .raised

/-- Wrap each part of a list in an opening and a closing tag and
concatenate, e.g. turning cell texts into a row body.  Used to state what
a well-formed vendor response looks like. -/
def tagJoin (opn cls : List Char) (parts : List (List Char)) : List Char :=
  (parts.map (fun p => opn ++ p ++ cls)).flatten

/-- A well-formed vendor markup table: one header row of `th` cells
followed by data rows of `td` cells, each row wrapped in `tr` tags. -/
def mkTable (header : List (List Char))
    (rows : List (List (List Char))) : List Char :=
  tagJoin trOpen trClose
    (tagJoin thOpen thClose header :: rows.map (tagJoin tdOpen tdClose))

/-- No occurrence of `pat` starts strictly inside `b` — whatever text
follows `b`.  This is the side condition under which the leftmost-match
scan of `splitFirst` steps cleanly over `b`. -/
def noInnerMatch (pat b : List Char) : Prop :=
  ∀ (i : Nat) (s : List Char), i < b.length →
    pat.isPrefixOf ((b ++ s).drop i) = false

/-! ## Numeric cell parsing

Models `pd.to_numeric(column, errors='coerce')` on a string cell: a
decimal literal with optional sign and optional fractional part parses to
its rational value; any other cell coerces to NaN, modelled as `none`. -/

/-- Numeric value of a digit list read in base 10. -/
def natFromDigits (s : List Char) : Nat :=
  s.foldl (fun acc c => acc * 10 + (c.toNat - 48)) 0

/-- Parse an unsigned decimal literal: digits with an optional single
point; at least one digit must be present on one side of the point. -/
def parseUnsignedDecimal (s : List Char) : Option ℚ :=
  let intPart := s.takeWhile Char.isDigit
  let rest := s.dropWhile Char.isDigit
  match rest with
  | [] => if intPart.isEmpty then none else some (natFromDigits intPart)
  | '.' :: frac =>
    if frac.all Char.isDigit && !(intPart.isEmpty && frac.isEmpty) then
      some ((natFromDigits intPart : ℚ) +
        (natFromDigits frac : ℚ) / ((10 : ℚ) ^ frac.length))
    else none
  | _ => none

/-- Parse a signed decimal literal; everything else is NaN (`none`). -/
def parseDecimal (s : List Char) : Option ℚ :=
  match s with
  | '-' :: rest => (parseUnsignedDecimal rest).map (fun q => -q)
  | '+' :: rest => parseUnsignedDecimal rest
  | _ => parseUnsignedDecimal s

/-! ## Series normalization (`fetch_rt_5min` lines 224-241,
`fetch_da_hourly` lines 255-270)

A parsed row is modelled restricted to the columns the normalizers read.
The `DATETIME` cell is modelled past `pd.to_datetime`, as an instant in
minutes (that call raises on unparseable text, a path no claim touches);
the `AVGVALUE` and `HOURENDING` cells stay strings and go through
`pd.to_numeric(..., errors='coerce')`, modelled by `parseDecimal`. -/

/-- A parsed real-time row: the `DATETIME` instant and the raw `AVGVALUE`
cell. -/
structure RawPriceRow where
  dt : Int
  avg : List Char
deriving DecidableEq

/-- The `RT_Price` column entry for a row (source line 229). -/
def rtPrice (r : RawPriceRow) : Option ℚ := parseDecimal r.avg

/-- The `time_hrs` column entry (source line 230):
`datetime.hour + datetime.minute / 60`. -/
def timeHrs (dt : Int) : ℚ :=
  ((dt % 1440) / 60 : Int) + (((dt % 1440) % 60 : Int) : ℚ) / 60

/-- The row comparison used by `df.sort_values('datetime')`. -/
def dtLe (a b : RawPriceRow) : Bool := a.dt ≤ b.dt

/-- The value produced by `fetch_rt_5min` after the fetch: the
`(df[['time_hrs', 'RT_Price']], latest)` pair. -/
abbrev RtVal := List (ℚ × Option ℚ) × ℚ

/-- Model of the normalization stage of `fetch_rt_5min` (source lines
224-241), applied to the parsed rows: raise on an empty row set, attach
numeric prices and fractional hours, sort by the timestamp, and take the
last price among rows whose price is not NaN, raising when there is none.
The object id inside the two message strings is omitted. -/
def normalize_rt (rows : List RawPriceRow) : Except (List Char) RtVal :=
  if rows.isEmpty then .error ("RT parse returned empty data".toList)
  else
    let sorted := rows.mergeSort dtLe
    match (sorted.filter (fun r => (rtPrice r).isSome)).getLast? with
    | none => .error ("No valid RT prices found".toList)
    | some r =>
      .ok (sorted.map (fun q => (timeHrs q.dt, rtPrice q)), (rtPrice r).getD 0)

/-- The latest real-time price as seen by callers: the second component of
a successful `fetch_rt_5min` result. -/
def rtLatest (rows : List RawPriceRow) : Option ℚ :=
  (normalize_rt rows).toOption.map (fun v => v.2)

/-- A parsed day-ahead row: the `DATETIME` instant, the raw `AVGVALUE`
cell, and the raw `HOURENDING` cell (meaningful only when the table has
that column). -/
structure RawDaRow where
  dt : Int
  avg : List Char
  heCell : List Char
deriving DecidableEq

/-- Local hour of an instant, as used by `df['datetime'].dt.hour`. -/
def hourOfInstant (dt : Int) : Int := (dt % 1440) / 60

/-- The `HE` column entry (source lines 262-265): numeric `HOURENDING`
when the column is present, else the local hour plus one. -/
def daHE (hasHEColumn : Bool) (r : RawDaRow) : Option ℚ :=
  if hasHEColumn then parseDecimal r.heCell
  else some ((hourOfInstant r.dt : ℚ) + 1)

/-- Comparison on `HE` entries used by `df.sort_values('HE')`; a NaN
(`none`) sorts last, as in pandas. -/
def optLe (a b : Option ℚ) : Bool :=
  match a, b with
  | none, none => true
  | none, some _ => false
  | some _, none => true
  | some x, some y => x ≤ y

/-- Model of the normalization stage of `fetch_da_hourly` (source lines
255-270): raise on an empty row set, attach `HE` and numeric prices, sort
ascending by `HE`, and return the `(HE, DA_Price)` rows. -/
def normalize_da (hasHEColumn : Bool) (rows : List RawDaRow) :
    Except (List Char) (List (Option ℚ × Option ℚ)) :=
  if rows.isEmpty then .error ("DA parse returned empty data".toList)
  else
    .ok ((rows.mergeSort
            (fun a b => optLe (daHE hasHEColumn a) (daHE hasHEColumn b))).map
          (fun r => (daHE hasHEColumn r, parseDecimal r.avg)))

/-! ## Day-ahead step expansion (`create_price_chart`, source lines
328-337) -/

/-- Python `int()` on a rational: truncation toward zero. -/
def ratTrunc (q : ℚ) : Int := if 0 ≤ q then ⌊q⌋ else ⌈q⌉

/-- Model of the loop building `da_x` and `da_y` (source lines 331-337):
for each day-ahead point with hour ending `he` and price `p`, emit the
coordinate pairs `(int(he) - 1, p)` and `(int(he), p)`, in row order. -/
def expandToSteps (series : List (ℚ × Option ℚ)) : List (Int × Option ℚ) :=
  series.flatMap (fun p => [(ratTrunc p.1 - 1, p.2), (ratTrunc p.1, p.2)])

/-! ## TTL cache path (`@st.cache_data` on `fetch_rt_5min`, and
`_get_rt_price`, source lines 212-213 and 479-485) -/

/-- The memo key of the cached `fetch_rt_5min` call:
`(objectid, date_str, refresh_key)`. -/
structure FetchKey where
  objectid : Nat
  dateStr : List Nat
  refreshKey : List Nat
deriving DecidableEq

/-- One memo entry of `st.cache_data`. -/
structure CacheEntry (α : Type) where
  value : α
  storedAt : Int
deriving DecidableEq

/-- The memo store of one `st.cache_data`-wrapped function, as an
association list whose first binding for a key is current. -/
abbrev CacheStore (α : Type) := List (FetchKey × CacheEntry α)

/-- Current binding for a key. -/
def lookupEntry (store : CacheStore α) (key : FetchKey) :
    Option (CacheEntry α) :=
  match store with
  | [] => none
  | (k, e) :: rest => if k = key then some e else lookupEntry rest key

/-- Call semantics of a `@st.cache_data(ttl=...)` function: a live
(non-expired) entry short-circuits the wrapped producer; otherwise the
producer runs, a success is memoized (a new first binding), and a raised
exception is not memoized and propagates. -/
def cachedCall (ttl : Int) (store : CacheStore α) (now : Int)
    (key : FetchKey) (producer : Except (List Char) α) :
    Except (List Char) α × CacheStore α :=
  match lookupEntry store key with
  | some entry =>
    if now - entry.storedAt < ttl then (.ok entry.value, store)
    else
      match producer with
      | .ok v => (.ok v, (key, ⟨v, now⟩) :: store)
      | .error e => (.error e, store)
  | none =>
    match producer with
    | .ok v => (.ok v, (key, ⟨v, now⟩) :: store)
    | .error e => (.error e, store)

/-- Model of `_get_rt_price(objectid, date_str, refresh_key)` (source
lines 479-485): call the cached `fetch_rt_5min` (TTL 120 seconds, source
line 212) and return its latest price, or `None` when the fetch raises. -/
def get_rt_price (store : CacheStore RtVal) (now : Int) (key : FetchKey)
    (producer : Except (List Char) RtVal) : Option ℚ × CacheStore RtVal :=
  match cachedCall 120 store now key producer with
  | (.ok v, s) => (some v.2, s)
  | (.error _, s) => (none, s)

/-! ## Top of `main` (source lines 553-594) -/

/-- The user-visible stages of `main`, in program order. -/
inductive MainStep where
  | renderTitle
  | renderMetaRefresh
  | renderHeaderRow
  | renderTabs
deriving DecidableEq

/-- The call `get_current_he()` on source line 557, checked against the
one-parameter signature on line 145: a Python call that omits a required
positional argument raises `TypeError` before the callee body runs.  The
argument is therefore an `Option`: `none` models the zero-argument call
that `main` actually makes. -/
def callGetCurrentHe (tzArg : Option Int) (now : Instant) :
    Except (List Char) Int :=
  match tzArg with
  | some tz => .ok (get_current_he tz now)
  | none =>
    .error ("TypeError: get_current_he() missing 1 required positional argument: tz".toList)

/-- Model of `main()` (source lines 553-594) at the granularity of its
user-visible stages: the title is rendered, then `current_he =
get_current_he()` runs; only if that call returns does the rest of the
body (meta refresh tag, header row, the four tabs) execute.  Returns the
stages reached and the uncaught exception, if any. -/
def mainTrace (now : Instant) : List MainStep × Option (List Char) :=
  match callGetCurrentHe none now with
  | .error e => ([.renderTitle], some e)
  | .ok _ =>
    ([.renderTitle, .renderMetaRefresh, .renderHeaderRow, .renderTabs], none)

/-! # Theorems -/

/-- Claim C8: for every zone and instant the current hour ending equals
the local hour plus one and lies in `[1, 24]`; local hour 0 maps to hour
ending 1 and local hour 23 to hour ending 24; and the value is a pure
function of zone and instant, so repeated evaluation agrees. -/
theorem get_current_he_spec (tz : Int) (now : Instant) :
    get_current_he tz now = localHour tz now + 1 ∧
    1 ≤ get_current_he tz now ∧ get_current_he tz now ≤ 24 ∧
    (localHour tz now = 0 → get_current_he tz now = 1) ∧
    (localHour tz now = 23 → get_current_he tz now = 24) ∧
    get_current_he tz now = get_current_he tz now := by
  unfold get_current_he localHour localMinutesOfDay
  omega

/-- Witness for `get_current_he_spec` at zone offset 0, instant 0. -/
theorem get_current_he_spec_witness : get_current_he 0 0 = 1 :=
  (get_current_he_spec 0 0).2.2.2.1 (by decide)

/-- Claim C10: the refresh key truncates the formatted minute to its tens
digit, so keys agree exactly when the two instants share their local
10-minute window; in particular instants five minutes apart can share a
key, while crossing a 10-minute boundary changes it. -/
theorem refresh_key_spec (y mo d h m1 m2 : Nat)
    (hm1 : m1 < 60) (hm2 : m2 < 60) :
    (refresh_key y mo d h m1 =
      fourDigitCodes y ++ [45] ++ twoDigitCodes mo ++ [45] ++
        twoDigitCodes d ++ [32] ++ twoDigitCodes h ++ [58] ++
        [digitCode (m1 / 10)]) ∧
    (m1 / 10 = m2 / 10 → refresh_key y mo d h m1 = refresh_key y mo d h m2) ∧
    (m1 / 10 ≠ m2 / 10 → refresh_key y mo d h m1 ≠ refresh_key y mo d h m2) ∧
    refresh_key 2026 10 12 14 30 = refresh_key 2026 10 12 14 35 ∧
    refresh_key 2026 10 12 14 39 ≠ refresh_key 2026 10 12 14 40 := by
  have e1 : ∀ m : Nat, refresh_key y mo d h m =
      fourDigitCodes y ++ [45] ++ twoDigitCodes mo ++ [45] ++
        twoDigitCodes d ++ [32] ++ twoDigitCodes h ++ [58] ++
        [digitCode (m / 10)] := fun m => rfl
  refine ⟨e1 m1, ?_, ?_, by decide, by decide⟩
  · intro hdiv
    rw [e1 m1, e1 m2, hdiv]
  · intro hdiv heq
    rw [e1 m1, e1 m2] at heq
    have hlast := List.append_cancel_left heq
    simp only [digitCode, List.cons.injEq, and_true] at hlast
    omega

/-- Witness for `refresh_key_spec`: minutes 30 and 35 share the window,
so the key is unchanged. -/
theorem refresh_key_spec_witness :
    refresh_key 2026 10 12 14 30 = refresh_key 2026 10 12 14 35 :=
  (refresh_key_spec 2026 10 12 14 30 35 (by decide) (by decide)).2.1 (by decide)

/-- Claim C9: for every instant, `main` raises a `TypeError` at the
zero-argument call `get_current_he()` and therefore never reaches the tab
rendering stage. -/
theorem main_type_error_spec (now : Instant) :
    (mainTrace now).2 =
      some (("TypeError: get_current_he() missing 1 required positional argument: tz").toList) ∧
    MainStep.renderTabs ∉ (mainTrace now).1 := by
  refine ⟨rfl, ?_⟩
  have h1 : (mainTrace now).1 = [MainStep.renderTitle] := rfl
  rw [h1]
  decide

/-- Claim C1 counterexample: the store holds a previously fetched value
25.13 for the key, the fresh fetch fails after its retries, and the caller
receives `None` (the unavailable marker), not the stored value.  The code
keeps no fallback entry, so the claimed stale-value path does not exist. -/
theorem fallback_claim_counterexample :
    (lookupEntry
        [(⟨1, [], []⟩, (⟨([], (2513 : ℚ)/100), 0⟩ : CacheEntry RtVal))]
        ⟨1, [], []⟩).map (fun entry => entry.value.2) = some ((2513 : ℚ)/100) ∧
    (get_rt_price [(⟨1, [], []⟩, ⟨([], (2513 : ℚ)/100), 0⟩)] 200 ⟨1, [], []⟩
        (.error (("RT API returned HTTP 503").toList))).1 = none ∧
    (none : Option ℚ) ≠ some ((2513 : ℚ)/100) := by
  refine ⟨rfl, rfl, by decide⟩

/-- Claim C1 as amended: when the fresh fetch path fails after exhausting
its retries, the caller always receives `None`: with no memo entry, or
with an expired one, the failure is absorbed into `None` regardless of any
previously stored value; a still-live memo entry returns its value while
the producer is not consulted at all.  No stale fallback value is ever
served and no staleness marking exists. -/
theorem get_rt_price_no_fallback (store : CacheStore RtVal) (now : Int)
    (key : FetchKey) (e : List Char) :
    (lookupEntry store key = none →
      (get_rt_price store now key (.error e)).1 = none) ∧
    (∀ entry, lookupEntry store key = some entry →
      120 ≤ now - entry.storedAt →
      (get_rt_price store now key (.error e)).1 = none) ∧
    (∀ entry (producer : Except (List Char) RtVal),
      lookupEntry store key = some entry → now - entry.storedAt < 120 →
      (get_rt_price store now key producer).1 = some entry.value.2) := by
  refine ⟨?_, ?_, ?_⟩
  · intro h
    simp [get_rt_price, cachedCall, h]
  · intro entry h hexp
    simp only [get_rt_price, cachedCall, h]
    rw [if_neg (by omega)]
  · intro entry producer h hlive
    simp only [get_rt_price, cachedCall, h]
    rw [if_pos hlive]

/-- Witness for `get_rt_price_no_fallback`: the empty store propagates a
failure as `None`. -/
theorem get_rt_price_no_fallback_witness :
    (get_rt_price [] 0 ⟨1, [], []⟩ (.error (("boom").toList))).1 = none :=
  (get_rt_price_no_fallback [] 0 ⟨1, [], []⟩ (("boom").toList)).1 rfl

/-- Helper for claim C2: a run of the retry loop whose first `k` attempts
fail and whose next attempt succeeds returns that attempt body after
`k + 1` attempts and `k` sleeps. -/
theorem fetchLoop_success (net : Nat → FetchOutcome) (desc : List Char) :
    ∀ (k remaining attempt : Nat) (lastErr : Option (List Char))
      (body : List Char), k < remaining →
      (∀ i, attempt ≤ i → i < attempt + k → (net i).isOk = false) →
      net (attempt + k) = .ok body →
      fetchLoop net desc remaining attempt lastErr = (.ok body, k + 1, k) := by
  intro k
  induction k with
  | zero =>
    intro remaining attempt lastErr body hk _ hok
    match remaining, hk with
    | r + 1, _ =>
      have hok0 : net attempt = .ok body := by simpa using hok
      simp [fetchLoop, hok0]
  | succ k ih =>
    intro remaining attempt lastErr body hk hfail hok
    match remaining, hk with
    | r + 1, _ =>
      have hf0 : (net attempt).isOk = false := hfail attempt le_rfl (by omega)
      have hr : r ≠ 0 := by omega
      have hrec : fetchLoop net desc r (attempt + 1) (some (attemptError desc (net attempt))) =
          (.ok body, k + 1, k) := by
        refine ih r (attempt + 1) _ body (by omega) ?_ ?_
        · intro i h1 h2
          exact hfail i (by omega) (by omega)
        · have : attempt + 1 + k = attempt + (k + 1) := by omega
          rw [this]
          exact hok
      cases hna : net attempt with
      | ok b => rw [hna] at hf0; simp [FetchOutcome.isOk] at hf0
      | httpError s =>
        rw [hna] at hrec
        simp only [fetchLoop, hna, hr, if_neg, if_false, hrec]
      | timedOut =>
        rw [hna] at hrec
        simp only [fetchLoop, hna, hr, if_neg, if_false, hrec]
      | requestFailed m =>
        rw [hna] at hrec
        simp only [fetchLoop, hna, hr, if_neg, if_false, hrec]

/-- Helper for claim C2: a run of the retry loop in which every allowed
attempt fails makes exactly `remaining` attempts, sleeps after each
attempt but the last one, and raises the error description of the last
attempt. -/
theorem fetchLoop_allFail (net : Nat → FetchOutcome) (desc : List Char) :
    ∀ (remaining attempt : Nat) (lastErr : Option (List Char)),
      1 ≤ remaining →
      (∀ i, attempt ≤ i → i < attempt + remaining → (net i).isOk = false) →
      fetchLoop net desc remaining attempt lastErr =
        (.error (attemptError desc (net (attempt + remaining - 1))),
          remaining, remaining - 1) := by
  intro remaining
  induction remaining with
  | zero => intro attempt lastErr h; omega
  | succ r ih =>
    intro attempt lastErr _ hfail
    have hf0 : (net attempt).isOk = false := hfail attempt le_rfl (by omega)
    by_cases hr : r = 0
    · subst hr
      cases hna : net attempt with
      | ok b => rw [hna] at hf0; simp [FetchOutcome.isOk] at hf0
      | httpError s => simp [fetchLoop, hna]
      | timedOut => simp [fetchLoop, hna]
      | requestFailed m => simp [fetchLoop, hna]
    · have hrec : fetchLoop net desc r (attempt + 1)
          (some (attemptError desc (net attempt))) =
          (.error (attemptError desc (net (attempt + 1 + r - 1))), r, r - 1) := by
        refine ih (attempt + 1) _ (by omega) ?_
        intro i h1 h2
        exact hfail i (by omega) (by omega)
      have hidx : attempt + 1 + r - 1 = attempt + (r + 1) - 1 := by omega
      rw [hidx] at hrec
      cases hna : net attempt with
      | ok b => rw [hna] at hf0; simp [FetchOutcome.isOk] at hf0
      | httpError s =>
        rw [hna] at hrec
        simp only [fetchLoop, hna, hr, if_neg, if_false, hrec]
        have hr1 : r - 1 + 1 = r + 1 - 1 := by omega
        rw [hr1]
      | timedOut =>
        rw [hna] at hrec
        simp only [fetchLoop, hna, hr, if_neg, if_false, hrec]
        have hr1 : r - 1 + 1 = r + 1 - 1 := by omega
        rw [hr1]
      | requestFailed m =>
        rw [hna] at hrec
        simp only [fetchLoop, hna, hr, if_neg, if_false, hrec]
        have hr1 : r - 1 + 1 = r + 1 - 1 := by omega
        rw [hr1]

/-- Claim C2: with attempts numbered from 1, if the first `k` attempts
fail (`k` below the attempt budget) and attempt `k + 1` succeeds, the
helper returns that response body after exactly `k + 1` attempts with a
sleep after each failure; if every attempt fails, exactly `maxAttempts`
attempts run, a sleep follows every attempt except the final one, and the
raised message is the recorded description of the last attempt outcome
(its status code or exception text), never a generic message. -/
theorem fetch_with_retry_spec (net : Nat → FetchOutcome) (desc : List Char)
    (maxAttempts : Nat) (hmax : 1 ≤ maxAttempts) :
    (∀ k body, k < maxAttempts →
      (∀ i, 1 ≤ i → i ≤ k → (net i).isOk = false) →
      net (k + 1) = .ok body →
      fetch_with_retry net desc maxAttempts = (.ok body, k + 1, k)) ∧
    ((∀ i, 1 ≤ i → i ≤ maxAttempts → (net i).isOk = false) →
      fetch_with_retry net desc maxAttempts =
        (.error (attemptError desc (net maxAttempts)),
          maxAttempts, maxAttempts - 1)) := by
  constructor
  · intro k body hk hfail hok
    refine fetchLoop_success net desc k maxAttempts 1 none body hk ?_ ?_
    · intro i h1 h2
      exact hfail i h1 (by omega)
    · have : 1 + k = k + 1 := by omega
      rw [this]
      exact hok
  · intro hfail
    have h := fetchLoop_allFail net desc maxAttempts 1 none hmax
      (fun i h1 h2 => hfail i h1 (by omega))
    have hidx : 1 + maxAttempts - 1 = maxAttempts := by omega
    rw [hidx] at h
    exact h

/-- Witness for `fetch_with_retry_spec`: one timeout, then a success on
attempt 2 out of an allowed 3, giving the body after 2 attempts and 1
sleep. -/
theorem fetch_with_retry_spec_witness :
    fetch_with_retry
      (fun i => if i = 1 then FetchOutcome.timedOut else .ok (("body").toList))
      (("RT API").toList) 3 =
      (.ok (("body").toList), 2, 1) := by
  refine (fetch_with_retry_spec
      (fun i => if i = 1 then FetchOutcome.timedOut else .ok (("body").toList))
      (("RT API").toList) 3 (by decide)).1 1 (("body").toList) (by decide) ?_ (by decide)
  intro i h1 h2
  have hi : i = 1 := le_antisymm h2 h1
  subst hi
  decide

/-- Helper for claim C6: positions `2 i` and `2 i + 1` of the expanded
step list hold the two boundary pairs of input point `i`. -/
theorem expandToSteps_get (series : List (ℚ × Option ℚ)) :
    ∀ (i : Nat) (hi : i < series.length),
      (expandToSteps series)[2 * i]? =
        some (ratTrunc (series.get ⟨i, hi⟩).1 - 1, (series.get ⟨i, hi⟩).2) ∧
      (expandToSteps series)[2 * i + 1]? =
        some (ratTrunc (series.get ⟨i, hi⟩).1, (series.get ⟨i, hi⟩).2) := by
  induction series with
  | nil => intro i hi; simp at hi
  | cons a t ih =>
    intro i hi
    have hexp : expandToSteps (a :: t) =
        (ratTrunc a.1 - 1, a.2) :: (ratTrunc a.1, a.2) :: expandToSteps t := by
      simp [expandToSteps]
    cases i with
    | zero => simp [hexp]
    | succ j =>
      have h2 : 2 * (j + 1) = 2 * j + 1 + 1 := by omega
      have h3 : 2 * (j + 1) + 1 = 2 * j + 1 + 1 + 1 := by omega
      have hj : j < t.length := by simpa using hi
      have := ih j hj
      constructor
      · rw [hexp, h2]
        simpa using this.1
      · rw [hexp, h3]
        simpa using this.2

/-- Truncation toward zero is the identity on integers. -/
theorem ratTrunc_intCast (n : Int) : ratTrunc ((n : ℚ)) = n := by
  unfold ratTrunc
  split <;> simp

/-- Claim C6: the step expansion of an `n`-point day-ahead series has
exactly `2 n` coordinate pairs; point `i` with hour ending `he` and price
`p` contributes the pairs `(he - 1, p)` and `(he, p)` at positions `2 i`
and `2 i + 1`; and two consecutive points with integer hour endings `h`
and `h + 1` and prices `p1`, `p2` produce the four pairs `(h - 1, p1)`,
`(h, p1)`, `(h, p2)`, `(h + 1, p2)` in that relative order, with the
shared boundary coordinate `h` duplicated. -/
theorem expand_to_steps_spec (series : List (ℚ × Option ℚ)) :
    (expandToSteps series).length = 2 * series.length ∧
    (∀ (i : Nat) (hi : i < series.length),
      (expandToSteps series)[2 * i]? =
        some (ratTrunc (series.get ⟨i, hi⟩).1 - 1, (series.get ⟨i, hi⟩).2) ∧
      (expandToSteps series)[2 * i + 1]? =
        some (ratTrunc (series.get ⟨i, hi⟩).1, (series.get ⟨i, hi⟩).2)) ∧
    (∀ (i : Nat) (h : Int) (p1 p2 : Option ℚ) (hi1 : i < series.length)
        (hi2 : i + 1 < series.length),
      series.get ⟨i, hi1⟩ = ((h : ℚ), p1) →
      series.get ⟨i + 1, hi2⟩ = (((h + 1 : Int) : ℚ), p2) →
      (expandToSteps series)[2 * i]? = some (h - 1, p1) ∧
      (expandToSteps series)[2 * i + 1]? = some (h, p1) ∧
      (expandToSteps series)[2 * i + 2]? = some (h, p2) ∧
      (expandToSteps series)[2 * i + 3]? = some (h + 1, p2)) := by
  refine ⟨?_, expandToSteps_get series, ?_⟩
  · induction series with
    | nil => simp [expandToSteps]
    | cons a t ih =>
      simp only [expandToSteps, List.flatMap_cons] at ih ⊢
      simp [ih]
      omega
  · intro i h p1 p2 hi1 hi2 hp1 hp2
    have g1 := (expandToSteps_get series i hi1).1
    have g2 := (expandToSteps_get series i hi1).2
    have g3 := (expandToSteps_get series (i + 1) hi2).1
    have g4 := (expandToSteps_get series (i + 1) hi2).2
    rw [hp1] at g1 g2
    rw [hp2] at g3 g4
    simp only [ratTrunc_intCast] at g1 g2 g3 g4
    have e3 : 2 * (i + 1) = 2 * i + 2 := by omega
    have e4 : 2 * (i + 1) + 1 = 2 * i + 3 := by omega
    rw [e3] at g3
    rw [e4] at g4
    refine ⟨g1, g2, ?_, g4⟩
    have : h + 1 - 1 = h := by omega
    rw [this] at g3
    exact g3

/-- Witness for `expand_to_steps_spec`: the two-point series with hour
endings 1 and 2 expands to the four pairs of the claim. -/
theorem expand_to_steps_spec_witness :
    (expandToSteps [((1 : ℚ), some (10 : ℚ)), ((2 : ℚ), some (20 : ℚ))])[0]? =
      some (0, some (10 : ℚ)) ∧
    (expandToSteps [((1 : ℚ), some (10 : ℚ)), ((2 : ℚ), some (20 : ℚ))])[1]? =
      some (1, some (10 : ℚ)) ∧
    (expandToSteps [((1 : ℚ), some (10 : ℚ)), ((2 : ℚ), some (20 : ℚ))])[2]? =
      some (1, some (20 : ℚ)) ∧
    (expandToSteps [((1 : ℚ), some (10 : ℚ)), ((2 : ℚ), some (20 : ℚ))])[3]? =
      some (2, some (20 : ℚ)) := by
  have h := (expand_to_steps_spec
      [((1 : ℚ), some (10 : ℚ)), ((2 : ℚ), some (20 : ℚ))]).2.2 0 1
      (some (10 : ℚ)) (some (20 : ℚ)) (by decide) (by decide)
      (by norm_num) (by norm_num)
  simpa using h

/-- In a list that is pairwise related by `R`, every element is the last
element or is related to it. -/
theorem pairwise_rel_getLast {α : Type} {R : α → α → Prop} :
    ∀ {l : List α}, l.Pairwise R → ∀ (hne : l ≠ []) {a : α}, a ∈ l →
      a = l.getLast hne ∨ R a (l.getLast hne) := by
  intro l
  induction l with
  | nil => intro _ hne; exact absurd rfl hne
  | cons x t ih =>
    intro hp hne a ha
    cases t with
    | nil =>
      simp only [List.mem_singleton] at ha
      subst ha
      exact Or.inl rfl
    | cons y t2 =>
      have hgl : (x :: y :: t2).getLast hne = (y :: t2).getLast (by simp) :=
        List.getLast_cons (by simp)
      rcases List.mem_cons.mp ha with rfl | hat
      · right
        rw [hgl]
        exact List.rel_of_pairwise_cons hp (List.getLast_mem (by simp))
      · rcases ih hp.of_cons (by simp) hat with heq | hrel
        · left
          rw [hgl, ← heq]
        · right
          rw [hgl]
          exact hrel

/-- Two sorted lists that are permutations of each other and have
pairwise distinct sort keys are equal. -/
theorem eq_of_perm_of_sorted_of_distinctKey {α : Type} (key : α → Int) :
    ∀ {l₁ l₂ : List α}, List.Perm l₁ l₂ →
      l₁.Pairwise (fun a b => key a ≤ key b) →
      l₂.Pairwise (fun a b => key a ≤ key b) →
      l₁.Pairwise (fun a b => key a ≠ key b) → l₁ = l₂ := by
  intro l₁
  induction l₁ with
  | nil =>
    intro l₂ hp _ _ _
    exact (hp.nil_eq).symm ▸ rfl
  | cons a t₁ ih =>
    intro l₂ hp hs₁ hs₂ hd
    cases l₂ with
    | nil => exact absurd hp.symm.nil_eq (by simp)
    | cons b t₂ =>
      have hab : a = b := by
        have hain : a ∈ b :: t₂ := hp.mem_iff.mp (by simp)
        have hbin : b ∈ a :: t₁ := hp.symm.mem_iff.mp (by simp)
        rcases List.mem_cons.mp hain with heq | hat2
        · exact heq
        · rcases List.mem_cons.mp hbin with heq | hbt1
          · exact heq.symm
          · exfalso
            have h1 : key a ≤ key b := List.rel_of_pairwise_cons hs₁ hbt1
            have h2 : key b ≤ key a := List.rel_of_pairwise_cons hs₂ hat2
            have h3 : key a ≠ key b := List.rel_of_pairwise_cons hd hbt1
            exact h3 (le_antisymm h1 h2)
      subst hab
      have htp : List.Perm t₁ t₂ := hp.cons_inv
      rw [ih htp hs₁.of_cons hs₂.of_cons hd.of_cons]

/-- The timestamp comparison is total. -/
theorem dtLe_total (a b : RawPriceRow) : dtLe a b || dtLe b a := by
  simp only [dtLe, Bool.or_eq_true, decide_eq_true_eq]
  exact le_total a.dt b.dt

/-- The timestamp comparison is transitive. -/
theorem dtLe_trans (a b c : RawPriceRow) :
    dtLe a b → dtLe b c → dtLe a c := by
  simp only [dtLe, decide_eq_true_eq]
  exact le_trans

/-- Claim C3: whenever the parsed real-time rows hold at least one row
with a numeric price and timestamps do not collide among such rows, the
derived latest price is the price of the maximum-timestamp row among the
rows whose price is non-null — and the value is invariant under any
reordering of the input rows, because the rows are sorted by the
timestamp instant before the selection. -/
theorem latest_rt_price_spec (rows : List RawPriceRow)
    (hsome : ∃ r ∈ rows, (rtPrice r).isSome = true)
    (hdist : rows.Pairwise (fun a b =>
      (rtPrice a).isSome = true → (rtPrice b).isSome = true → a.dt ≠ b.dt)) :
    ∃ r ∈ rows, (rtPrice r).isSome = true ∧
      (∀ q ∈ rows, (rtPrice q).isSome = true → q.dt ≤ r.dt) ∧
      rtLatest rows = some ((rtPrice r).getD 0) ∧
      (∀ rows₂, List.Perm rows₂ rows → rtLatest rows₂ = rtLatest rows) := by
  classical
  let p : RawPriceRow → Bool := fun r => (rtPrice r).isSome
  set sorted := rows.mergeSort dtLe with hsorted_def
  have hperm : List.Perm sorted rows := List.mergeSort_perm rows dtLe
  have hsorted : sorted.Pairwise (fun a b => dtLe a b = true) :=
    List.sorted_mergeSort dtLe_trans dtLe_total rows
  set valid := sorted.filter p with hvalid_def
  obtain ⟨r0, hr0mem, hr0some⟩ := hsome
  have hr0v : r0 ∈ valid :=
    List.mem_filter.mpr ⟨hperm.mem_iff.mpr hr0mem, hr0some⟩
  have hvne : valid ≠ [] := List.ne_nil_of_mem hr0v
  set r := valid.getLast hvne with hr_def
  have hrv : r ∈ valid := List.getLast_mem hvne
  have hrs : r ∈ sorted := (List.mem_filter.mp hrv).1
  have hrsome : (rtPrice r).isSome = true := (List.mem_filter.mp hrv).2
  have hrrows : r ∈ rows := hperm.mem_iff.mp hrs
  have hvsorted : valid.Pairwise (fun a b => dtLe a b = true) :=
    hsorted.filter p
  have hrowsne : rows.isEmpty = false := by
    cases rows with
    | nil => simp at hr0mem
    | cons x t => rfl
  have hglast : valid.getLast? = some r := List.getLast?_eq_getLast valid hvne
  have hok : normalize_rt rows =
      .ok (sorted.map (fun q => (timeHrs q.dt, rtPrice q)), (rtPrice r).getD 0) := by
    rw [normalize_rt.eq_def]
    rw [hrowsne]
    simp only [Bool.false_eq_true, if_false, ← hsorted_def, ← hvalid_def, hglast]
  refine ⟨r, hrrows, hrsome, ?_, ?_, ?_⟩
  · intro q hq hqsome
    have hqv : q ∈ valid := List.mem_filter.mpr ⟨hperm.mem_iff.mpr hq, hqsome⟩
    rcases pairwise_rel_getLast hvsorted hvne hqv with heq | hrel
    · rw [heq, ← hr_def]
    · rw [← hr_def] at hrel
      simpa [dtLe] using hrel
  · rw [rtLatest, hok]
    rfl
  · intro rows₂ hrows₂
    set sorted₂ := rows₂.mergeSort dtLe with hsorted2_def
    have hperm₂ : List.Perm sorted₂ rows₂ := List.mergeSort_perm rows₂ dtLe
    have hsorted₂ : sorted₂.Pairwise (fun a b => dtLe a b = true) :=
      List.sorted_mergeSort dtLe_trans dtLe_total rows₂
    set valid₂ := sorted₂.filter p with hvalid2_def
    have hvperm : List.Perm valid₂ valid :=
      ((hperm₂.trans hrows₂).trans hperm.symm).filter p
    have hdist_sorted : sorted.Pairwise (fun a b =>
        (rtPrice a).isSome = true → (rtPrice b).isSome = true → a.dt ≠ b.dt) := by
      refine (List.Perm.pairwise_iff ?_ hperm).mpr hdist
      intro a b hab h1 h2
      exact (hab h2 h1).symm
    have hdist_valid : valid.Pairwise (fun a b => a.dt ≠ b.dt) := by
      refine (hdist_sorted.filter p).imp_of_mem ?_
      intro a b ha hb hab
      exact hab (List.mem_filter.mp ha).2 (List.mem_filter.mp hb).2
    have hle₂ : valid₂.Pairwise (fun a b => a.dt ≤ b.dt) := by
      refine (hsorted₂.filter p).imp ?_
      intro a b hab
      simpa [dtLe] using hab
    have hle₁ : valid.Pairwise (fun a b => a.dt ≤ b.dt) := by
      refine hvsorted.imp ?_
      intro a b hab
      simpa [dtLe] using hab
    have hveq : valid₂ = valid := by
      refine eq_of_perm_of_sorted_of_distinctKey (fun q => q.dt) hvperm hle₂ hle₁ ?_
      refine (List.Perm.pairwise_iff ?_ hvperm).mpr hdist_valid
      intro a b h
      exact h.symm
    have hrowsne₂ : rows₂.isEmpty = false := by
      cases rows₂ with
      | nil =>
        exfalso
        have := hrows₂.symm.mem_iff.mp hr0mem
        simp at this
      | cons x t => rfl
    have hglast₂ : valid₂.getLast? = some r := by
      rw [hveq, hglast]
    have hok₂ : normalize_rt rows₂ =
        .ok (sorted₂.map (fun q => (timeHrs q.dt, rtPrice q)), (rtPrice r).getD 0) := by
      rw [normalize_rt.eq_def]
      rw [hrowsne₂]
      simp only [Bool.false_eq_true, if_false, ← hsorted2_def, ← hvalid2_def, hglast₂]
    rw [rtLatest, rtLatest, hok, hok₂]
    rfl

/-- Witness for `latest_rt_price_spec`: two rows arriving out of order,
the later one first and with the only numeric price; the latest price is
that price. -/
theorem latest_rt_price_spec_witness :
    ∃ r ∈ [(⟨5, ("21.50").toList⟩ : RawPriceRow), ⟨0, ("bad").toList⟩],
      (rtPrice r).isSome = true ∧
      (∀ q ∈ [(⟨5, ("21.50").toList⟩ : RawPriceRow), ⟨0, ("bad").toList⟩],
        (rtPrice q).isSome = true → q.dt ≤ r.dt) ∧
      rtLatest [(⟨5, ("21.50").toList⟩ : RawPriceRow), ⟨0, ("bad").toList⟩] =
        some ((rtPrice r).getD 0) ∧
      (∀ rows₂,
        List.Perm rows₂ [(⟨5, ("21.50").toList⟩ : RawPriceRow), ⟨0, ("bad").toList⟩] →
        rtLatest rows₂ =
          rtLatest [(⟨5, ("21.50").toList⟩ : RawPriceRow), ⟨0, ("bad").toList⟩]) := by
  refine latest_rt_price_spec _ ⟨⟨5, ("21.50").toList⟩, by decide, by decide⟩ ?_
  decide

/-- The `HE` comparison is total. -/
theorem optLe_total (a b : Option ℚ) : optLe a b || optLe b a := by
  cases a with
  | none => cases b <;> simp [optLe]
  | some x =>
    cases b with
    | none => simp [optLe]
    | some y =>
      simp only [optLe, Bool.or_eq_true, decide_eq_true_eq]
      exact le_total x y

/-- The `HE` comparison is transitive. -/
theorem optLe_trans (a b c : Option ℚ) :
    optLe a b → optLe b c → optLe a c := by
  cases a <;> cases b <;> cases c <;> simp [optLe]
  exact le_trans

/-- Claim C5: normalization keeps every parsed row, attaching a null
price to a cell that fails numeric parsing (the series length equals the
parsed row count and the multiset of points is the pointwise image of the
rows); the real-time normalizer fails exactly when the row set is empty
or every price is null, and the day-ahead normalizer fails exactly when
the row set is empty. -/
theorem normalize_error_spec (rows : List RawPriceRow)
    (rowsDa : List RawDaRow) (hasHE : Bool) :
    (rows ≠ [] → (∃ r ∈ rows, (rtPrice r).isSome = true) →
      ∃ series latest, normalize_rt rows = .ok (series, latest) ∧
        series.length = rows.length ∧
        List.Perm series (rows.map (fun r => (timeHrs r.dt, rtPrice r)))) ∧
    ((∃ e, normalize_rt rows = .error e) ↔
      rows = [] ∨ ∀ r ∈ rows, rtPrice r = none) ∧
    ((∃ e, normalize_da hasHE rowsDa = .error e) ↔ rowsDa = []) ∧
    (rowsDa ≠ [] →
      ∃ series, normalize_da hasHE rowsDa = .ok series ∧
        series.length = rowsDa.length) := by
  classical
  have hmain : rows ≠ [] → (∃ r ∈ rows, (rtPrice r).isSome = true) →
      ∃ series latest, normalize_rt rows = .ok (series, latest) ∧
        series.length = rows.length ∧
        List.Perm series (rows.map (fun r => (timeHrs r.dt, rtPrice r))) := by
    intro hne hval
    set sorted := rows.mergeSort dtLe with hsorted_def
    have hperm : List.Perm sorted rows := List.mergeSort_perm rows dtLe
    obtain ⟨r0, hr0mem, hr0some⟩ := hval
    have hr0v : r0 ∈ sorted.filter (fun r => (rtPrice r).isSome) :=
      List.mem_filter.mpr ⟨hperm.mem_iff.mpr hr0mem, hr0some⟩
    have hvne : sorted.filter (fun r => (rtPrice r).isSome) ≠ [] :=
      List.ne_nil_of_mem hr0v
    have hglast := List.getLast?_eq_getLast _ hvne
    have hrowsne : rows.isEmpty = false := by
      cases rows with
      | nil => exact absurd rfl hne
      | cons x t => rfl
    refine ⟨sorted.map (fun q => (timeHrs q.dt, rtPrice q)),
      (rtPrice ((sorted.filter (fun r => (rtPrice r).isSome)).getLast hvne)).getD 0,
      ?_, ?_, ?_⟩
    · rw [normalize_rt.eq_def, hrowsne]
      simp only [Bool.false_eq_true, if_false, ← hsorted_def, hglast]
    · rw [List.length_map, List.length_mergeSort]
    · exact hperm.map _
  refine ⟨hmain, ⟨?_, ?_⟩, ?_, ?_⟩
  · intro ⟨e, he⟩
    by_cases hne : rows = []
    · exact Or.inl hne
    · right
      intro r hr
      by_contra hcon
      have hval : ∃ q ∈ rows, (rtPrice q).isSome = true :=
        ⟨r, hr, Option.isSome_iff_ne_none.mpr hcon⟩
      obtain ⟨series, latest, hok, _, _⟩ := hmain hne hval
      rw [hok] at he
      cases he
  · intro h
    rcases h with rfl | hall
    · exact ⟨_, rfl⟩
    · rw [normalize_rt.eq_def]
      cases hrows : rows.isEmpty with
      | true => exact ⟨_, rfl⟩
      | false =>
        have hfilter : (rows.mergeSort dtLe).filter
            (fun r => (rtPrice r).isSome) = [] := by
          refine List.filter_eq_nil_iff.mpr ?_
          intro r hr
          have : rtPrice r = none :=
            hall r ((List.mergeSort_perm rows dtLe).mem_iff.mp hr)
          simp [this]
        simp only [Bool.false_eq_true, if_false, hfilter, List.getLast?_nil]
        exact ⟨_, rfl⟩
  · cases rowsDa with
    | nil => simp [normalize_da]
    | cons x t => simp [normalize_da]
  · intro hneDa
    have hrowsne : rowsDa.isEmpty = false := by
      cases rowsDa with
      | nil => exact absurd rfl hneDa
      | cons x t => rfl
    refine ⟨(rowsDa.mergeSort
        (fun a b => optLe (daHE hasHE a) (daHE hasHE b))).map
        (fun r => (daHE hasHE r, parseDecimal r.avg)), ?_, ?_⟩
    · rw [normalize_da.eq_def, hrowsne]
      simp only [Bool.false_eq_true, if_false]
    · rw [List.length_map, List.length_mergeSort]

/-- Witness for `normalize_error_spec`: one row with a numeric cell
normalizes successfully to a one-point series, and the one bad-cell
day-ahead row also survives with the row kept. -/
theorem normalize_error_spec_witness :
    ∃ series latest,
      normalize_rt [(⟨0, ("1.5").toList⟩ : RawPriceRow)] = .ok (series, latest) ∧
      series.length = 1 ∧
      List.Perm series
        ([(⟨0, ("1.5").toList⟩ : RawPriceRow)].map
          (fun r => (timeHrs r.dt, rtPrice r))) :=
  (normalize_error_spec [(⟨0, ("1.5").toList⟩ : RawPriceRow)] [] true).1
    (by decide) ⟨⟨0, ("1.5").toList⟩, by decide, by decide⟩

/-- Claim C7: the day-ahead normalizer derives the hour-ending values
from the numeric `HOURENDING` column when the table has one and from the
local hour plus one otherwise, keeps the rows (as a permutation of their
pointwise image), and returns the series sorted ascending by the
hour-ending entry. -/
theorem normalize_da_sorted_spec (rows : List RawDaRow) (hne : rows ≠ []) :
    (∃ series, normalize_da true rows = .ok series ∧
      List.Perm series
        (rows.map (fun r => (parseDecimal r.heCell, parseDecimal r.avg))) ∧
      series.Pairwise (fun p q => optLe p.1 q.1 = true)) ∧
    (∃ series, normalize_da false rows = .ok series ∧
      List.Perm series
        (rows.map (fun r =>
          (some ((hourOfInstant r.dt : ℚ) + 1), parseDecimal r.avg))) ∧
      series.Pairwise (fun p q => optLe p.1 q.1 = true)) := by
  have hrowsne : rows.isEmpty = false := by
    cases rows with
    | nil => exact absurd rfl hne
    | cons x t => rfl
  have gen : ∀ c : Bool,
      ∃ series, normalize_da c rows = .ok series ∧
        List.Perm series
          (rows.map (fun r => (daHE c r, parseDecimal r.avg))) ∧
        series.Pairwise (fun p q => optLe p.1 q.1 = true) := by
    intro c
    refine ⟨(rows.mergeSort
        (fun a b => optLe (daHE c a) (daHE c b))).map
        (fun r => (daHE c r, parseDecimal r.avg)), ?_, ?_, ?_⟩
    · rw [normalize_da.eq_def, hrowsne]
      simp only [Bool.false_eq_true, if_false]
    · exact (List.mergeSort_perm rows _).map _
    · refine List.Pairwise.map _ ?_
        (List.sorted_mergeSort
          (fun a b c2 => optLe_trans (daHE c a) (daHE c b) (daHE c c2))
          (fun a b => optLe_total (daHE c a) (daHE c b)) rows)
      intro a b hab
      exact hab
  exact ⟨gen true, gen false⟩

/-- Witness for `normalize_da_sorted_spec` at a single day-ahead row. -/
theorem normalize_da_sorted_spec_witness :
    ∃ series,
      normalize_da true [(⟨70, ("25.0").toList, ("2").toList⟩ : RawDaRow)] =
        .ok series ∧
      List.Perm series
        ([(⟨70, ("25.0").toList, ("2").toList⟩ : RawDaRow)].map
          (fun r => (parseDecimal r.heCell, parseDecimal r.avg))) ∧
      series.Pairwise (fun p q => optLe p.1 q.1 = true) :=
  (normalize_da_sorted_spec
    [(⟨70, ("25.0").toList, ("2").toList⟩ : RawDaRow)] (by decide)).1

/-- Length bookkeeping for `splitFirst`. -/
theorem splitFirst_length {pat s pre post : List Char}
    (h : splitFirst pat s = some (pre, post)) :
    s.length = pre.length + pat.length + post.length := by
  induction s generalizing pre post with
  | nil =>
    by_cases hp : pat.isEmpty
    · simp only [splitFirst, hp, if_pos, Option.some.injEq, Prod.mk.injEq] at h
      obtain ⟨rfl, rfl⟩ := h
      simp [List.isEmpty_iff.mp hp]
    · simp [splitFirst, hp] at h
  | cons c rest ih =>
    by_cases hp : pat.isPrefixOf (c :: rest)
    · simp only [splitFirst, hp, if_pos, Option.some.injEq, Prod.mk.injEq] at h
      obtain ⟨rfl, rfl⟩ := h
      have hle : pat.length ≤ rest.length + 1 := by
        have h6 := List.isPrefixOf_iff_prefix.mp hp
        simpa using h6.length_le
      simp only [List.length_drop, List.length_cons, List.length_nil]
      omega
    · simp only [splitFirst, hp, Bool.false_eq_true, if_false] at h
      cases hsp : splitFirst pat rest with
      | none => simp [hsp] at h
      | some pr =>
        obtain ⟨pre1, post1⟩ := pr
        simp only [hsp, Option.some.injEq, Prod.mk.injEq] at h
        obtain ⟨rfl, rfl⟩ := h
        have := ih hsp
        simp only [List.length_cons]
        omega

/-- The scan finds a pattern standing at the very front. -/
theorem splitFirst_head_match (pat t : List Char) :
    splitFirst pat (pat ++ t) = some ([], t) := by
  cases hs : pat ++ t with
  | nil =>
    obtain ⟨hp, ht⟩ := List.append_eq_nil.mp hs
    subst hp
    subst ht
    rfl
  | cons c rest =>
    have hpre : pat.isPrefixOf (c :: rest) = true := by
      rw [← hs]
      exact List.isPrefixOf_iff_prefix.mpr (List.prefix_append pat t)
    simp only [splitFirst, hpre, if_true]
    rw [← hs, List.drop_left]

/-- The empty text has no inner match. -/
theorem noInnerMatch_nil (pat : List Char) : noInnerMatch pat [] := by
  intro i s hi
  simp at hi

/-- Inner matches survive dropping the head. -/
theorem noInnerMatch_cons_tail {pat b : List Char} {c : Char}
    (h : noInnerMatch pat (c :: b)) : noInnerMatch pat b := by
  intro i s hi
  have h2 := h (i + 1) s (by simp; omega)
  simpa using h2

/-- Texts with no inner match concatenate. -/
theorem noInnerMatch_append {pat x y : List Char}
    (hx : noInnerMatch pat x) (hy : noInnerMatch pat y) :
    noInnerMatch pat (x ++ y) := by
  intro i s hi
  rcases Nat.lt_or_ge i x.length with hlt | hge
  · have h2 := hx i (y ++ s) hlt
    simpa [List.append_assoc] using h2
  · have hj : i - x.length < y.length := by
      simp only [List.length_append] at hi
      omega
    have h2 := hy (i - x.length) s hj
    have hdrop : ((x ++ y) ++ s).drop i = (y ++ s).drop (i - x.length) := by
      rw [List.append_assoc]
      have hi2 : i = x.length + (i - x.length) := by omega
      rw [hi2, ← List.drop_drop, List.drop_left]
      congr 1
      omega
    rw [hdrop]
    exact h2

/-- A concatenation of clean texts is clean. -/
theorem noInnerMatch_flatten {pat : List Char} {L : List (List Char)}
    (h : ∀ x ∈ L, noInnerMatch pat x) : noInnerMatch pat L.flatten := by
  induction L with
  | nil => simpa using noInnerMatch_nil pat
  | cons x L ih =>
    rw [List.flatten_cons]
    exact noInnerMatch_append (h x (by simp))
      (ih (fun y hy => h y (by simp [hy])))

/-- A text avoiding the head character of the pattern has no inner
match. -/
theorem noInnerMatch_of_head_notMem {h0 : Char} {pt b : List Char}
    (hb : h0 ∉ b) : noInnerMatch (h0 :: pt) b := by
  intro i s hi
  have hidrop : (b ++ s).drop i = b[i] :: ((b ++ s).drop (i + 1)) := by
    have hi2 : i < (b ++ s).length := by simp; omega
    rw [List.drop_eq_getElem_cons hi2]
    congr 1
    exact List.getElem_append_left hi
  rw [hidrop]
  have hbeq : (h0 == b[i]) = false := by
    refine beq_eq_false_iff_ne.mpr ?_
    intro hcon
    exact hb (hcon ▸ List.getElem_mem hi)
  simp [List.isPrefixOf_cons₂, hbeq]

/-- The closing row tag does not start inside an opening header-cell
tag. -/
theorem noInnerMatch_trClose_thOpen : noInnerMatch trClose thOpen := by
  intro i s hi
  simp only [thOpen, List.length_cons, List.length_nil] at hi
  interval_cases i <;> simp +decide [trClose, thOpen, List.isPrefixOf]

/-- The closing row tag does not start inside a closing header-cell
tag. -/
theorem noInnerMatch_trClose_thClose : noInnerMatch trClose thClose := by
  intro i s hi
  simp only [thClose, List.length_cons, List.length_nil] at hi
  interval_cases i <;> simp +decide [trClose, thClose, List.isPrefixOf]

/-- The closing row tag does not start inside an opening data-cell
tag. -/
theorem noInnerMatch_trClose_tdOpen : noInnerMatch trClose tdOpen := by
  intro i s hi
  simp only [tdOpen, List.length_cons, List.length_nil] at hi
  interval_cases i <;> simp +decide [trClose, tdOpen, List.isPrefixOf]

/-- The closing row tag does not start inside a closing data-cell tag. -/
theorem noInnerMatch_trClose_tdClose : noInnerMatch trClose tdClose := by
  intro i s hi
  simp only [tdClose, List.length_cons, List.length_nil] at hi
  interval_cases i <;> simp +decide [trClose, tdClose, List.isPrefixOf]

/-- The opening header-cell tag does not start inside an opening
data-cell tag. -/
theorem noInnerMatch_thOpen_tdOpen : noInnerMatch thOpen tdOpen := by
  intro i s hi
  simp only [tdOpen, List.length_cons, List.length_nil] at hi
  interval_cases i <;> simp +decide [thOpen, tdOpen, List.isPrefixOf]

/-- The opening header-cell tag does not start inside a closing
data-cell tag. -/
theorem noInnerMatch_thOpen_tdClose : noInnerMatch thOpen tdClose := by
  intro i s hi
  simp only [tdClose, List.length_cons, List.length_nil] at hi
  interval_cases i <;> simp +decide [thOpen, tdClose, List.isPrefixOf]

/-- Stepping over a clean text to the pattern that follows it. -/
theorem splitFirst_of_noInnerMatch {pat : List Char} (a b : List Char)
    (h : noInnerMatch pat a) :
    splitFirst pat (a ++ pat ++ b) = some (a, b) := by
  induction a with
  | nil => simpa using splitFirst_head_match pat b
  | cons c a2 ih =>
    have hnot : pat.isPrefixOf (c :: (a2 ++ (pat ++ b))) = false := by
      have h2 := h 0 (pat ++ b) (by simp)
      simpa using h2
    have hrec := ih (noInnerMatch_cons_tail h)
    show splitFirst pat (c :: (a2 ++ pat ++ b)) = some (c :: a2, b)
    rw [splitFirst]
    rw [show a2 ++ pat ++ b = a2 ++ (pat ++ b) from List.append_assoc a2 pat b] at hrec ⊢
    rw [if_neg (by simp [hnot]), hrec]

/-- A pattern with no inner match does not occur at all. -/
theorem splitFirst_eq_none_of_noInnerMatch {pat : List Char}
    (hpat : pat ≠ []) (b : List Char) (h : noInnerMatch pat b) :
    splitFirst pat b = none := by
  induction b with
  | nil =>
    have : pat.isEmpty = false := by
      cases pat with
      | nil => exact absurd rfl hpat
      | cons x xs => rfl
    simp [splitFirst, this]
  | cons c b2 ih =>
    have hnot : pat.isPrefixOf (c :: b2) = false := by
      have h2 := h 0 [] (by simp)
      simpa using h2
    rw [splitFirst, if_neg (by simp [hnot]), ih (noInnerMatch_cons_tail h)]

/-- A non-empty pattern is not a prefix of the empty text. -/
theorem splitFirst_nil_of_ne {pat : List Char} (hpat : pat ≠ []) :
    splitFirst pat [] = none := by
  have hE : pat.isEmpty = false := by
    cases pat with
    | nil => exact absurd rfl hpat
    | cons x xs => rfl
  simp [splitFirst, hE]

/-- The tag-pair extraction recovers exactly the wrapped parts of a
`tagJoin`, as long as the closing tag never starts inside a part. -/
theorem extractAllAux_tagJoin {opn cls : List Char} (hopn : opn ≠ [])
    (cells : List (List Char)) (hnpi : ∀ c ∈ cells, noInnerMatch cls c) :
    ∀ fuel, (tagJoin opn cls cells).length ≤ fuel →
      extractAllAux opn cls fuel (tagJoin opn cls cells) = cells := by
  induction cells with
  | nil =>
    intro fuel _
    cases fuel with
    | zero => rfl
    | succ f =>
      show extractAllAux opn cls (f + 1) [] = []
      simp [extractAllAux, splitFirst_nil_of_ne hopn]
  | cons c cs ih =>
    intro fuel hf
    have hjoin : tagJoin opn cls (c :: cs) =
        opn ++ (c ++ (cls ++ tagJoin opn cls cs)) := by
      simp [tagJoin, List.append_assoc]
    have hop : 0 < opn.length := List.length_pos.mpr hopn
    have hlen1 : 1 ≤ (tagJoin opn cls (c :: cs)).length := by
      rw [hjoin]
      simp only [List.length_append]
      omega
    cases fuel with
    | zero => omega
    | succ f =>
      have hs1 : splitFirst opn (tagJoin opn cls (c :: cs)) =
          some ([], c ++ (cls ++ tagJoin opn cls cs)) := by
        rw [hjoin]
        exact splitFirst_head_match opn _
      have hs2 : splitFirst cls (c ++ (cls ++ tagJoin opn cls cs)) =
          some (c, tagJoin opn cls cs) := by
        have h2 := splitFirst_of_noInnerMatch c (tagJoin opn cls cs)
          (hnpi c (by simp))
        simpa [List.append_assoc] using h2
      have hflen : (tagJoin opn cls cs).length ≤ f := by
        have h1 := congrArg List.length hjoin
        simp only [List.length_append] at h1
        omega
      simp only [extractAllAux, hs1, hs2]
      rw [ih (fun y hy => hnpi y (by simp [hy])) f hflen]

/-- The tag-pair extraction on a well-formed joined text. -/
theorem extractAll_tagJoin {opn cls : List Char} (hopn : opn ≠ [])
    (cells : List (List Char)) (hnpi : ∀ c ∈ cells, noInnerMatch cls c) :
    extractAll opn cls (tagJoin opn cls cells) = cells :=
  extractAllAux_tagJoin hopn cells hnpi _ le_rfl

/-- A newline-free text passes the same-line restriction untouched. -/
theorem takeWhile_ne_newline_eq_self {s : List Char} (h : '\n' ∉ s) :
    s.takeWhile (fun ch => ch != '\n') = s := by
  induction s with
  | nil => rfl
  | cons c t ih =>
    have hc : (c != '\n') = true := by
      simp only [bne_iff_ne]
      intro hcon
      exact h (by simp [hcon])
    rw [List.takeWhile_cons, hc, if_pos rfl]
    rw [ih (fun hcon => h (by simp [hcon]))]

/-- A joined text over newline-free tags and parts is newline-free. -/
theorem no_newline_tagJoin {opn cls : List Char} (ho : '\n' ∉ opn)
    (hc : '\n' ∉ cls) {cells : List (List Char)}
    (hcells : ∀ c ∈ cells, '\n' ∉ c) : '\n' ∉ tagJoin opn cls cells := by
  intro hmem
  rw [tagJoin] at hmem
  obtain ⟨l, hl, hmem2⟩ := List.mem_flatten.mp hmem
  obtain ⟨c, hcc, rfl⟩ := List.mem_map.mp hl
  rcases List.mem_append.mp hmem2 with h1 | h2
  · rcases List.mem_append.mp h1 with ha | hb
    · exact ho ha
    · exact hcells c hcc hb
  · exact hc h2

/-- The same-line tag-pair extraction also recovers exactly the wrapped
parts of a `tagJoin`, as long as the tags and parts are newline-free and
the closing tag never starts inside a part. -/
theorem extractAllNLAux_tagJoin {opn cls : List Char} (hopn : opn ≠ [])
    (honl : '\n' ∉ opn) (hcnl : '\n' ∉ cls)
    (cells : List (List Char)) (hnpi : ∀ c ∈ cells, noInnerMatch cls c)
    (hcellsnl : ∀ c ∈ cells, '\n' ∉ c) :
    ∀ fuel, (tagJoin opn cls cells).length ≤ fuel →
      extractAllNLAux opn cls fuel (tagJoin opn cls cells) = cells := by
  induction cells with
  | nil =>
    intro fuel _
    cases fuel with
    | zero => rfl
    | succ f =>
      show extractAllNLAux opn cls (f + 1) [] = []
      simp [extractAllNLAux, splitFirst_nil_of_ne hopn]
  | cons c cs ih =>
    intro fuel hf
    have hjoin : tagJoin opn cls (c :: cs) =
        opn ++ (c ++ (cls ++ tagJoin opn cls cs)) := by
      simp [tagJoin, List.append_assoc]
    have hop : 0 < opn.length := List.length_pos.mpr hopn
    have hlen1 : 1 ≤ (tagJoin opn cls (c :: cs)).length := by
      rw [hjoin]
      simp only [List.length_append]
      omega
    cases fuel with
    | zero => omega
    | succ f =>
      have hs1 : splitFirst opn (tagJoin opn cls (c :: cs)) =
          some ([], c ++ (cls ++ tagJoin opn cls cs)) := by
        rw [hjoin]
        exact splitFirst_head_match opn _
      have hrestnl : '\n' ∉ c ++ (cls ++ tagJoin opn cls cs) := by
        intro hmem
        rcases List.mem_append.mp hmem with h1 | h2
        · exact hcellsnl c (by simp) h1
        · rcases List.mem_append.mp h2 with h3 | h4
          · exact hcnl h3
          · exact no_newline_tagJoin honl hcnl
              (fun y hy => hcellsnl y (by simp [hy])) h4
      have htake : (c ++ (cls ++ tagJoin opn cls cs)).takeWhile
          (fun ch => ch != '\n') = c ++ (cls ++ tagJoin opn cls cs) :=
        takeWhile_ne_newline_eq_self hrestnl
      have hs2 : splitFirst cls (c ++ (cls ++ tagJoin opn cls cs)) =
          some (c, tagJoin opn cls cs) := by
        have h2 := splitFirst_of_noInnerMatch c (tagJoin opn cls cs)
          (hnpi c (by simp))
        simpa [List.append_assoc] using h2
      have hdrop : (c ++ (cls ++ tagJoin opn cls cs)).drop
          (c.length + cls.length) = tagJoin opn cls cs := by
        rw [show c ++ (cls ++ tagJoin opn cls cs) =
            (c ++ cls) ++ tagJoin opn cls cs from
          (List.append_assoc c cls _).symm]
        exact List.drop_left' (by simp)
      have hflen : (tagJoin opn cls cs).length ≤ f := by
        have h1 := congrArg List.length hjoin
        simp only [List.length_append] at h1
        omega
      simp only [extractAllNLAux, hs1, htake, hs2, hdrop]
      rw [ih (fun y hy => hnpi y (by simp [hy]))
        (fun y hy => hcellsnl y (by simp [hy])) f hflen]

/-- The same-line tag-pair extraction on a well-formed joined text. -/
theorem extractAllNL_tagJoin {opn cls : List Char} (hopn : opn ≠ [])
    (honl : '\n' ∉ opn) (hcnl : '\n' ∉ cls)
    (cells : List (List Char)) (hnpi : ∀ c ∈ cells, noInnerMatch cls c)
    (hcellsnl : ∀ c ∈ cells, '\n' ∉ c) :
    extractAllNL opn cls (tagJoin opn cls cells) = cells :=
  extractAllNLAux_tagJoin hopn honl hcnl cells hnpi hcellsnl _ le_rfl

/-- A joined text with at least one part starts with the opening tag, so
the substring test for the opening tag succeeds. -/
theorem containsSub_tagJoin_head (opn cls : List Char) (c : List Char)
    (cs : List (List Char)) :
    containsSub opn (tagJoin opn cls (c :: cs)) = true := by
  have hjoin : tagJoin opn cls (c :: cs) =
      opn ++ (c ++ (cls ++ tagJoin opn cls cs)) := by
    simp [tagJoin, List.append_assoc]
  rw [containsSub, hjoin, splitFirst_head_match]
  rfl

/-- The substring test fails on a text with no inner match. -/
theorem containsSub_eq_false_of_noInnerMatch {pat : List Char}
    (hpat : pat ≠ []) (b : List Char) (h : noInnerMatch pat b) :
    containsSub pat b = false := by
  rw [containsSub, splitFirst_eq_none_of_noInnerMatch hpat b h]
  rfl

/-- A tag starting with the angle bracket never starts inside a joined
text whose tags it avoids and whose parts avoid the angle bracket. -/
theorem noInnerMatch_lt_tagJoin {pt opn cls : List Char}
    (h1 : noInnerMatch ('<' :: pt) opn) (h2 : noInnerMatch ('<' :: pt) cls)
    (cells : List (List Char)) (hclean : ∀ c ∈ cells, '<' ∉ c) :
    noInnerMatch ('<' :: pt) (tagJoin opn cls cells) := by
  refine noInnerMatch_flatten ?_
  intro x hx
  obtain ⟨c, hc, rfl⟩ := List.mem_map.mp hx
  exact noInnerMatch_append
    (noInnerMatch_append h1 (noInnerMatch_of_head_notMem (hclean c hc))) h2

/-- The classification loop maps a block of well-formed data rows to
their cell lists, appended to the data accumulator, leaving the header
accumulator unchanged. -/
theorem parseRowsAux_data (rows : List (List (List Char))) :
    ∀ (headers : Option (List (List Char)))
      (data : List (List (List Char))),
      (∀ r ∈ rows, r ≠ []) → (∀ r ∈ rows, ∀ c ∈ r, '<' ∉ c) →
      (∀ r ∈ rows, ∀ c ∈ r, '\n' ∉ c) →
      parseRowsAux headers data (rows.map (tagJoin tdOpen tdClose)) =
        (headers, data ++ rows.map (fun r => r.map normCell)) := by
  induction rows with
  | nil =>
    intro headers data _ _ _
    simp [parseRowsAux]
  | cons r rs ih =>
    intro headers data hne hclean hcleanNL
    have hclean_r : ∀ c ∈ r, '<' ∉ c := hclean r (by simp)
    have hcleanNL_r : ∀ c ∈ r, '\n' ∉ c := hcleanNL r (by simp)
    have hth : containsSub thOpen (tagJoin tdOpen tdClose r) = false := by
      refine containsSub_eq_false_of_noInnerMatch (by decide) _ ?_
      exact noInnerMatch_lt_tagJoin noInnerMatch_thOpen_tdOpen
        noInnerMatch_thOpen_tdClose r hclean_r
    have hex : extractAllNL tdOpen tdClose (tagJoin tdOpen tdClose r) = r := by
      refine extractAllNL_tagJoin (by decide) (by decide) (by decide) r ?_
        hcleanNL_r
      intro c hc
      exact noInnerMatch_of_head_notMem (hclean_r c hc)
    cases hr : r with
    | nil => exact absurd hr (hne r (by simp))
    | cons c0 cs0 =>
      have htd : containsSub tdOpen (tagJoin tdOpen tdClose r) = true := by
        rw [hr]
        exact containsSub_tagJoin_head tdOpen tdClose c0 cs0
      have hcells : ((extractAllNL tdOpen tdClose
          (tagJoin tdOpen tdClose r)).map normCell).isEmpty = false := by
        rw [hex, hr]
        rfl
      rw [← hr]
      simp only [List.map_cons, parseRowsAux, hth, Bool.false_eq_true,
        if_false, htd, if_true, hcells]
      rw [hex]
      rw [ih headers (data ++ [r.map normCell])
        (fun q hq => hne q (by simp [hq]))
        (fun q hq => hclean q (by simp [hq]))
        (fun q hq => hcleanNL q (by simp [hq]))]
      simp

/-- The classification loop on a well-formed table: the header row sets
the headers, and the data rows accumulate in order. -/
theorem parseRows_structured (header : List (List Char))
    (rows : List (List (List Char))) (hh : header ≠ [])
    (hcleanH : ∀ c ∈ header, '<' ∉ c)
    (hcleanHNL : ∀ c ∈ header, '\n' ∉ c)
    (hcleanD : ∀ r ∈ rows, ∀ c ∈ r, '<' ∉ c)
    (hcleanDNL : ∀ r ∈ rows, ∀ c ∈ r, '\n' ∉ c)
    (hne : ∀ r ∈ rows, r ≠ []) :
    parseRows (tagJoin thOpen thClose header ::
        rows.map (tagJoin tdOpen tdClose)) =
      (some (header.map normCell), rows.map (fun r => r.map normCell)) := by
  have hth : containsSub thOpen (tagJoin thOpen thClose header) = true := by
    cases hh2 : header with
    | nil => exact absurd hh2 hh
    | cons c cs => exact containsSub_tagJoin_head thOpen thClose c cs
  have hex : extractAllNL thOpen thClose (tagJoin thOpen thClose header) =
      header := by
    refine extractAllNL_tagJoin (by decide) (by decide) (by decide) header ?_
      hcleanHNL
    intro c hc
    exact noInnerMatch_of_head_notMem (hcleanH c hc)
  rw [parseRows]
  simp only [parseRowsAux, hth, if_true]
  rw [hex]
  rw [parseRowsAux_data rows (some (header.map normCell)) [] hne hcleanD
    hcleanDNL]
  simp

/-- The row extraction of a well-formed table recovers the header row
body and the data row bodies. -/
theorem extractAll_mkTable (header : List (List Char))
    (rows : List (List (List Char)))
    (hcleanH : ∀ c ∈ header, '<' ∉ c)
    (hcleanD : ∀ r ∈ rows, ∀ c ∈ r, '<' ∉ c) :
    extractAll trOpen trClose (mkTable header rows) =
      tagJoin thOpen thClose header ::
        rows.map (tagJoin tdOpen tdClose) := by
  rw [mkTable]
  refine extractAll_tagJoin (by decide) _ ?_
  intro body hbody
  rcases List.mem_cons.mp hbody with rfl | hdata
  · exact noInnerMatch_lt_tagJoin noInnerMatch_trClose_thOpen
      noInnerMatch_trClose_thClose header hcleanH
  · obtain ⟨r, hr, rfl⟩ := List.mem_map.mp hdata
    exact noInnerMatch_lt_tagJoin noInnerMatch_trClose_tdOpen
      noInnerMatch_trClose_tdClose r (hcleanD r hr)

/-- Claim C4 counterexample: the markup `<tr><th>A</th></tr>` contains a
row segment and no data row — so the claimed failure condition (no row
segments, or data rows without a header) does not hold — yet the parser
returns the failure value, because it also fails when no data row was
captured. -/
theorem parse_header_only_counterexample :
    extractAll trOpen trClose (("<tr><th>A</th></tr>").toList) ≠ [] ∧
    (parseRows (extractAll trOpen trClose
        (("<tr><th>A</th></tr>").toList))).2 = [] ∧
    parse_yes_html_table (("<tr><th>A</th></tr>").toList) =
      ParsedTable.failure := by
  refine ⟨by decide, by decide, by decide⟩

/-- Claim C4 as amended: the parser fails exactly when the input has no
row segments, or no header row was captured (none seen, or the captured
header list is empty), or no data row with at least one cell was
captured; and on every well-formed table — one non-empty header row
followed by at least one data row whose cell counts match the header,
every cell free of angle brackets and of newlines (the cell scans do not
cross lines) — it returns the normalized (entity-decoded and trimmed)
rows, each with exactly as many fields as the header has columns. -/
theorem parse_table_spec :
    (∀ html : List Char,
      (parse_yes_html_table html = ParsedTable.failure ↔
        extractAll trOpen trClose html = [] ∨
        (parseRows (extractAll trOpen trClose html)).1.getD [] = [] ∨
        (parseRows (extractAll trOpen trClose html)).2 = [])) ∧
    (∀ (header : List (List Char)) (rows : List (List (List Char))),
      header ≠ [] → rows ≠ [] →
      (∀ r ∈ rows, r.length = header.length) →
      (∀ c ∈ header, '<' ∉ c) → (∀ r ∈ rows, ∀ c ∈ r, '<' ∉ c) →
      (∀ c ∈ header, '\n' ∉ c) → (∀ r ∈ rows, ∀ c ∈ r, '\n' ∉ c) →
      parse_yes_html_table (mkTable header rows) =
        ParsedTable.table (header.map normCell)
          (rows.map (fun r => r.map normCell)) ∧
      rows.map (fun r => r.map normCell) ≠ [] ∧
      (∀ r2 ∈ rows.map (fun r => r.map normCell),
        r2.length = (header.map normCell).length)) := by
  constructor
  · intro html
    rw [parse_yes_html_table]
    cases hrows : (extractAll trOpen trClose html).isEmpty with
    | true =>
      simp only [if_true]
      have : extractAll trOpen trClose html = [] :=
        List.isEmpty_iff.mp hrows
      simp [this]
    | false =>
      simp only [Bool.false_eq_true, if_false]
      have hrne : extractAll trOpen trClose html ≠ [] := by
        intro hcon
        rw [hcon] at hrows
        simp at hrows
      cases hpr : parseRows (extractAll trOpen trClose html) with
      | mk headers? data =>
        cases headers? with
        | none => simp [hrne]
        | some headers =>
          cases hhe : headers.isEmpty with
          | true =>
            have : headers = [] := List.isEmpty_iff.mp hhe
            simp [hrne, this]
          | false =>
            have hH : headers ≠ [] := by
              intro hcon
              rw [hcon] at hhe
              simp at hhe
            cases hde : data.isEmpty with
            | true =>
              have : data = [] := List.isEmpty_iff.mp hde
              simp [hrne, hH, this]
            | false =>
              have hD : data ≠ [] := by
                intro hcon
                rw [hcon] at hde
                simp at hde
              simp only [hhe, hde, Bool.or_self, Bool.false_eq_true,
                if_false]
              cases hall : data.all (fun r => r.length = headers.length) with
              | true => simp [hrne, hH, hD]
              | false => simp [hrne, hH, hD]
  · intro header rows hh hr hlen hcleanH hcleanD hcleanHNL hcleanDNL
    have hne : ∀ r ∈ rows, r ≠ [] := by
      intro r hrr hcon
      have := hlen r hrr
      rw [hcon] at this
      simp at this
      exact hh (List.eq_nil_of_length_eq_zero this.symm)
    have hex := extractAll_mkTable header rows hcleanH hcleanD
    have hpr := parseRows_structured header rows hh hcleanH hcleanHNL
      hcleanD hcleanDNL hne
    have hrowsne : (extractAll trOpen trClose (mkTable header rows)).isEmpty
        = false := by
      rw [hex]
      rfl
    have hHne : (header.map normCell).isEmpty = false := by
      cases hh2 : header with
      | nil => exact absurd hh2 hh
      | cons c cs => rfl
    have hDne : (rows.map (fun r => r.map normCell)).isEmpty = false := by
      cases hr2 : rows with
      | nil => exact absurd hr2 hr
      | cons q qs => rfl
    have hall : (rows.map (fun r => r.map normCell)).all
        (fun r2 => r2.length = (header.map normCell).length) = true := by
      rw [List.all_eq_true]
      intro r2 hr2
      obtain ⟨r, hrr, rfl⟩ := List.mem_map.mp hr2
      simp only [List.length_map]
      exact decide_eq_true (hlen r hrr)
    refine ⟨?_, ?_, ?_⟩
    · rw [parse_yes_html_table]
      simp only [hex, List.isEmpty_cons, Bool.false_eq_true, if_false,
        hpr, hHne, hDne, Bool.or_self, hall, if_true]
    · intro hcon
      rw [hcon] at hDne
      simp at hDne
    · intro r2 hr2
      obtain ⟨r, hrr, rfl⟩ := List.mem_map.mp hr2
      simp only [List.length_map]
      exact hlen r hrr

/-- Witness for `parse_table_spec`: a two-column table with one data row,
with a non-breaking-space entity normalized in a header cell. -/
theorem parse_table_spec_witness :
    parse_yes_html_table
      (mkTable [("DATE&#160;TIME").toList, ("AVGVALUE").toList]
        [[("2024-01-01").toList, ("21.50").toList]]) =
      ParsedTable.table
        [("DATE TIME").toList, ("AVGVALUE").toList]
        [[("2024-01-01").toList, ("21.50").toList]] := by
  have h := (parse_table_spec).2
    [("DATE&#160;TIME").toList, ("AVGVALUE").toList]
    [[("2024-01-01").toList, ("21.50").toList]]
    (by decide) (by decide) (by decide) (by decide) (by decide)
    (by decide) (by decide)
  have h2 := h.1
  rw [h2]
  rfl

end Leeward
